import Mathlib

/-!
Verification of the handle table in `src/src/UnlimitedHandleResource.h`
(namespace `cs`).  The table is a mutex-guarded, growable slot array of
`std::shared_ptr<TStruct>`; the mutex only serializes operations, so each
operation is modelled as a pure function on the slot array.  A slot is
`Option R`: `none` for a null `shared_ptr`, `some r` for a live resource.
The handle collaborator (`THandle`) lives outside this repository and is
modelled from the spec where noted.
-/

set_option autoImplicit false

namespace cs

/-- Modelled from the spec: the `THandle` collaborator (not part of this
repository) is an opaque value composed of a non-negative `index` bounded by
`kIndexMax` and a type `tag` identifying the owning table. -/
structure THandle where
  index : Int
  tag : Int
  deriving DecidableEq, Repr

/-- Modelled from the spec: the handle collaborator's decode operation
(`GetTypedIndex`) takes an expected type tag and returns the encoded index,
or a negative sentinel when the handle does not match that tag. -/
def getTypedIndex (h : THandle) (expected : Int) : Int :=
  if h.tag = expected then h.index else -1

/-- `MakeHandle` (source line 58): mint the handle for slot `i` carrying the
table's type tag `typeValue`. -/
def MakeHandle (typeValue : Int) (i : Nat) : THandle :=
  ⟨(i : Int), typeValue⟩

/-- Modelled from the spec: the sentinel invalid handle produced by
`return 0;` on exhaustion — raw value zero, i.e. index 0 with type tag 0
(the "equivalent null encoding" of the spec). -/
def invalidHandle : THandle := ⟨0, 0⟩

/-- The slot array `m_structures : std::vector<std::shared_ptr<TStruct>>`.
A slot holds `none` for a null pointer and `some r` for a live resource. -/
abbrev Table (R : Type) := List (Option R)

variable {R : Type}

/-- Contents of slot `i`; out-of-range reads give `none`, like a freed or
never-written slot. -/
def slot (t : Table R) (i : Nat) : Option R :=
  t.getD i none

/-- Scan loop of the constructing `Allocate` overload (source lines 70-82):
from position `i`, install the newly constructed resource in the first empty
slot; at the end of the array fail when `i >= kIndexMax` (`return 0;`),
otherwise append a new slot. -/
def allocateFrom (kIndexMax : Nat) (typeValue : Int) (r : R) :
    Nat → Table R → THandle × Table R
  | i, [] =>
      if kIndexMax ≤ i then (invalidHandle, [])
      else (MakeHandle typeValue i, [some r])
  | i, none :: rest => (MakeHandle typeValue i, some r :: rest)
  | i, some x :: rest =>
      let p := allocateFrom kIndexMax typeValue r (i + 1) rest
      (p.1, some x :: p.2)

/-- The constructing `Allocate` overload (source lines 66-83): first-fit
scan from index 0, with `make_shared` producing a non-null pointer. -/
def Allocate (kIndexMax : Nat) (typeValue : Int) (r : R) (t : Table R) :
    THandle × Table R :=
  allocateFrom kIndexMax typeValue r 0 t

/-- Scan loop of the by-reference `Allocate` overload (source lines 90-99):
identical scan, but the caller-supplied pointer `s` (possibly null) is
installed as-is. -/
def allocSharedFrom (kIndexMax : Nat) (typeValue : Int) (s : Option R) :
    Nat → Table R → THandle × Table R
  | i, [] =>
      if kIndexMax ≤ i then (invalidHandle, [])
      else (MakeHandle typeValue i, [s])
  | i, none :: rest => (MakeHandle typeValue i, s :: rest)
  | i, some x :: rest =>
      let p := allocSharedFrom kIndexMax typeValue s (i + 1) rest
      (p.1, some x :: p.2)

/-- The by-reference `Allocate` overload (source lines 85-100).  The source
declares the parameter as `std::shared_ptr<THandle>`, but the body stores it
into `m_structures : std::vector<std::shared_ptr<TStruct>>`, so it is
modelled with the resource type the container dictates. -/
def AllocateShared (kIndexMax : Nat) (typeValue : Int) (s : Option R)
    (t : Table R) : THandle × Table R :=
  allocSharedFrom kIndexMax typeValue s 0 t

/-- `Get` (source lines 102-112): decode the handle for this table's tag,
reject a negative index without locking, bounds-check against the array
length, and return the slot's contents (a null slot reads back as `none`). -/
def Get (typeValue : Int) (h : THandle) (t : Table R) : Option R :=
  let index := getTypedIndex h typeValue
  if index < 0 then none
  else if (t.length : Int) ≤ index then none
  else t.getD index.toNat none

/-- `Free` (source lines 114-123): decode as in `Get`; when the index is
non-negative and in range, reset that slot to empty, otherwise no-op. -/
def Free (typeValue : Int) (h : THandle) (t : Table R) : Table R :=
  let index := getTypedIndex h typeValue
  if index < 0 then t
  else if (t.length : Int) ≤ index then t
  else t.set index.toNat none

/-- Scan loop of `GetAll` (source lines 129-133): push one handle per
occupied slot onto the caller's vector, in index order. -/
def getAllFrom (typeValue : Int) : Nat → Table R → List THandle → List THandle
  | _, [], handles => handles
  | i, none :: rest, handles => getAllFrom typeValue (i + 1) rest handles
  | i, some _ :: rest, handles =>
      getAllFrom typeValue (i + 1) rest (handles ++ [MakeHandle typeValue i])

/-- `GetAll` (source lines 125-134), with the caller-provided output vector
passed explicitly. -/
def GetAll (typeValue : Int) (t : Table R) (handles : List THandle) :
    List THandle :=
  getAllFrom typeValue 0 t handles

/-- Index of the first empty slot found by the allocation scan, if any. -/
def firstEmpty : Table R → Option Nat
  | [] => none
  | none :: _ => some 0
  | some _ :: rest => (firstEmpty rest).map (· + 1)

/-- The slot index a successful allocation would use: the first empty slot,
or the append position `t.length` when the array may still grow. -/
def chosenIndex (kIndexMax : Nat) (t : Table R) : Option Nat :=
  match firstEmpty t with
  | some j => some j
  | none => if t.length < kIndexMax then some t.length else none

/-- Allocation succeeds exactly when an empty slot exists or the array may
still grow. -/
def AllocOk (kIndexMax : Nat) (t : Table R) : Bool :=
  (firstEmpty t).isSome || decide (t.length < kIndexMax)

/-! ### Basic slot lemmas -/

theorem slot_nil (i : Nat) : slot ([] : Table R) i = none := by
  cases i <;> rfl

theorem slot_cons_zero (x : Option R) (t : Table R) : slot (x :: t) 0 = x := rfl

theorem slot_cons_succ (x : Option R) (t : Table R) (i : Nat) :
    slot (x :: t) (i + 1) = slot t i := rfl

theorem slot_of_length_le {t : Table R} {i : Nat} (h : t.length ≤ i) :
    slot t i = none := by
  induction t generalizing i with
  | nil => exact slot_nil i
  | cons x rest ih =>
    cases i with
    | zero => simp at h
    | succ j =>
      rw [slot_cons_succ]
      exact ih (Nat.le_of_succ_le_succ h)

theorem lt_length_of_slot_ne_none {t : Table R} {i : Nat}
    (h : slot t i ≠ none) : i < t.length := by
  by_contra hc
  exact h (slot_of_length_le (Nat.le_of_not_lt hc))

theorem slot_set_self {t : Table R} {i : Nat} (v : Option R)
    (h : i < t.length) : slot (t.set i v) i = v := by
  induction t generalizing i with
  | nil => simp at h
  | cons x rest ih =>
    cases i with
    | zero => rfl
    | succ j =>
      show slot (rest.set j v) j = v
      exact ih (Nat.lt_of_succ_lt_succ h)

theorem slot_set_ne (t : Table R) (v : Option R) {i j : Nat} (h : i ≠ j) :
    slot (t.set i v) j = slot t j := by
  induction t generalizing i j with
  | nil => rfl
  | cons x rest ih =>
    cases i with
    | zero =>
      cases j with
      | zero => exact absurd rfl h
      | succ j' => rfl
    | succ i' =>
      cases j with
      | zero => rfl
      | succ j' =>
        show slot (rest.set i' v) j' = slot rest j'
        exact ih fun he => h (congrArg Nat.succ he)

theorem slot_append_lt {t : Table R} (l : Table R) {j : Nat}
    (h : j < t.length) : slot (t ++ l) j = slot t j := by
  induction t generalizing j with
  | nil => simp at h
  | cons x rest ih =>
    cases j with
    | zero => rfl
    | succ j' =>
      rw [List.cons_append, slot_cons_succ, slot_cons_succ]
      exact ih (Nat.lt_of_succ_lt_succ h)

theorem slot_append_length (t : Table R) (v : Option R) :
    slot (t ++ [v]) t.length = v := by
  induction t with
  | nil => rfl
  | cons x rest ih =>
    rw [List.cons_append, List.length_cons, slot_cons_succ]
    exact ih

theorem slot_append_ge {t : Table R} (v : Option R) {j : Nat}
    (h : t.length < j) : slot (t ++ [v]) j = none := by
  refine slot_of_length_le ?_
  rw [List.length_append, List.length_singleton]
  exact h

/-! ### First-empty-slot lemmas -/

theorem firstEmpty_eq_none_iff {t : Table R} :
    firstEmpty t = none ↔ ∀ x ∈ t, x ≠ none := by
  induction t with
  | nil => simp [firstEmpty]
  | cons x rest ih =>
    cases x with
    | none => simp [firstEmpty]
    | some y => simp [firstEmpty, ih]

theorem firstEmpty_spec {t : Table R} {j : Nat} (h : firstEmpty t = some j) :
    j < t.length ∧ slot t j = none ∧ ∀ j', j' < j → slot t j' ≠ none := by
  induction t generalizing j with
  | nil => simp [firstEmpty] at h
  | cons x rest ih =>
    cases x with
    | none =>
      simp [firstEmpty] at h
      subst h
      exact ⟨Nat.succ_pos _, rfl, fun j' hj' => absurd hj' (Nat.not_lt_zero _)⟩
    | some y =>
      simp [firstEmpty] at h
      obtain ⟨j₀, hj₀, rfl⟩ := h
      obtain ⟨h1, h2, h3⟩ := ih hj₀
      refine ⟨Nat.succ_lt_succ h1, h2, ?_⟩
      intro j' hj'
      cases j' with
      | zero => simp [slot_cons_zero]
      | succ j'' =>
        rw [slot_cons_succ]
        exact h3 j'' (Nat.lt_of_succ_lt_succ hj')

theorem firstEmpty_of_least {t : Table R} {j : Nat} (hlt : j < t.length)
    (hj : slot t j = none) (hmin : ∀ j', j' < j → slot t j' ≠ none) :
    firstEmpty t = some j := by
  induction t generalizing j with
  | nil => simp at hlt
  | cons x rest ih =>
    cases j with
    | zero =>
      rw [slot_cons_zero] at hj
      subst hj
      rfl
    | succ j' =>
      have hx : x ≠ none := by
        have := hmin 0 (Nat.succ_pos _)
        rwa [slot_cons_zero] at this
      obtain ⟨y, rfl⟩ := Option.ne_none_iff_exists'.mp hx
      have : firstEmpty rest = some j' := by
        refine ih (Nat.lt_of_succ_lt_succ hlt) hj ?_
        intro j'' hj''
        have := hmin (j'' + 1) (Nat.succ_lt_succ hj'')
        rwa [slot_cons_succ] at this
      simp [firstEmpty, this]

/-! ### Characterization of the allocation scans -/

theorem allocateFrom_of_some (k : Nat) (tv : Int) (r : R) {t : Table R}
    {j : Nat} (h : firstEmpty t = some j) (i : Nat) :
    allocateFrom k tv r i t = (MakeHandle tv (i + j), t.set j (some r)) := by
  induction t generalizing i j with
  | nil => simp [firstEmpty] at h
  | cons x rest ih =>
    cases x with
    | none =>
      simp [firstEmpty] at h
      subst h
      rfl
    | some y =>
      simp [firstEmpty] at h
      obtain ⟨j₀, hj₀, rfl⟩ := h
      show ((allocateFrom k tv r (i + 1) rest).1,
          some y :: (allocateFrom k tv r (i + 1) rest).2) = _
      rw [ih hj₀]
      have harith : i + 1 + j₀ = i + (j₀ + 1) := by omega
      rw [harith]
      rfl

theorem allocateFrom_of_none (k : Nat) (tv : Int) (r : R) {t : Table R}
    (h : firstEmpty t = none) (i : Nat) :
    allocateFrom k tv r i t =
      if k ≤ i + t.length then (invalidHandle, t)
      else (MakeHandle tv (i + t.length), t ++ [some r]) := by
  induction t generalizing i with
  | nil => simp [allocateFrom]
  | cons x rest ih =>
    cases x with
    | none => simp [firstEmpty] at h
    | some y =>
      simp [firstEmpty] at h
      show ((allocateFrom k tv r (i + 1) rest).1,
          some y :: (allocateFrom k tv r (i + 1) rest).2) = _
      rw [ih h]
      have harith : i + 1 + rest.length = i + (some y :: rest : Table R).length := by
        simp
        omega
      by_cases hc : k ≤ i + 1 + rest.length
      · rw [if_pos hc, if_pos (harith ▸ hc)]
      · rw [if_neg hc, if_neg (harith ▸ hc), harith]
        rfl

theorem allocSharedFrom_of_some (k : Nat) (tv : Int) (s : Option R)
    {t : Table R} {j : Nat} (h : firstEmpty t = some j) (i : Nat) :
    allocSharedFrom k tv s i t = (MakeHandle tv (i + j), t.set j s) := by
  induction t generalizing i j with
  | nil => simp [firstEmpty] at h
  | cons x rest ih =>
    cases x with
    | none =>
      simp [firstEmpty] at h
      subst h
      rfl
    | some y =>
      simp [firstEmpty] at h
      obtain ⟨j₀, hj₀, rfl⟩ := h
      show ((allocSharedFrom k tv s (i + 1) rest).1,
          some y :: (allocSharedFrom k tv s (i + 1) rest).2) = _
      rw [ih hj₀]
      have harith : i + 1 + j₀ = i + (j₀ + 1) := by omega
      rw [harith]
      rfl

theorem allocSharedFrom_of_none (k : Nat) (tv : Int) (s : Option R)
    {t : Table R} (h : firstEmpty t = none) (i : Nat) :
    allocSharedFrom k tv s i t =
      if k ≤ i + t.length then (invalidHandle, t)
      else (MakeHandle tv (i + t.length), t ++ [s]) := by
  induction t generalizing i with
  | nil => simp [allocSharedFrom]
  | cons x rest ih =>
    cases x with
    | none => simp [firstEmpty] at h
    | some y =>
      simp [firstEmpty] at h
      show ((allocSharedFrom k tv s (i + 1) rest).1,
          some y :: (allocSharedFrom k tv s (i + 1) rest).2) = _
      rw [ih h]
      have harith : i + 1 + rest.length = i + (some y :: rest : Table R).length := by
        simp
        omega
      by_cases hc : k ≤ i + 1 + rest.length
      · rw [if_pos hc, if_pos (harith ▸ hc)]
      · rw [if_neg hc, if_neg (harith ▸ hc), harith]
        rfl

theorem Allocate_fill (k : Nat) (tv : Int) (r : R) {t : Table R} {j : Nat}
    (h : firstEmpty t = some j) :
    Allocate k tv r t = (MakeHandle tv j, t.set j (some r)) := by
  have := allocateFrom_of_some k tv r h 0
  rwa [Nat.zero_add] at this

theorem Allocate_append (k : Nat) (tv : Int) (r : R) {t : Table R}
    (h : firstEmpty t = none) (hlen : t.length < k) :
    Allocate k tv r t = (MakeHandle tv t.length, t ++ [some r]) := by
  have := allocateFrom_of_none k tv r h 0
  rw [Nat.zero_add, if_neg (Nat.not_le_of_lt hlen)] at this
  exact this

theorem Allocate_fail (k : Nat) (tv : Int) (r : R) {t : Table R}
    (h : firstEmpty t = none) (hlen : k ≤ t.length) :
    Allocate k tv r t = (invalidHandle, t) := by
  have := allocateFrom_of_none k tv r h 0
  rw [Nat.zero_add, if_pos hlen] at this
  exact this

theorem AllocateShared_fill (k : Nat) (tv : Int) (s : Option R) {t : Table R}
    {j : Nat} (h : firstEmpty t = some j) :
    AllocateShared k tv s t = (MakeHandle tv j, t.set j s) := by
  have := allocSharedFrom_of_some k tv s h 0
  rwa [Nat.zero_add] at this

theorem AllocateShared_append (k : Nat) (tv : Int) (s : Option R)
    {t : Table R} (h : firstEmpty t = none) (hlen : t.length < k) :
    AllocateShared k tv s t = (MakeHandle tv t.length, t ++ [s]) := by
  have := allocSharedFrom_of_none k tv s h 0
  rw [Nat.zero_add, if_neg (Nat.not_le_of_lt hlen)] at this
  exact this

theorem AllocateShared_fail (k : Nat) (tv : Int) (s : Option R) {t : Table R}
    (h : firstEmpty t = none) (hlen : k ≤ t.length) :
    AllocateShared k tv s t = (invalidHandle, t) := by
  have := allocSharedFrom_of_none k tv s h 0
  rw [Nat.zero_add, if_pos hlen] at this
  exact this

/-! ### Allocation through the chosen slot -/

theorem AllocOk_iff_chosen (k : Nat) (t : Table R) :
    AllocOk k t = true ↔ (chosenIndex k t).isSome := by
  unfold AllocOk chosenIndex
  cases hfe : firstEmpty t with
  | none => by_cases hlen : t.length < k <;> simp [hlen]
  | some j => simp

theorem Allocate_of_chosen (k : Nat) (tv : Int) (r : R) {t : Table R}
    {j : Nat} (h : chosenIndex k t = some j) :
    slot t j = none ∧
    (Allocate k tv r t).1 = MakeHandle tv j ∧
    slot (Allocate k tv r t).2 j = some r ∧
    (∀ j', j' ≠ j → slot (Allocate k tv r t).2 j' = slot t j') ∧
    t.length ≤ (Allocate k tv r t).2.length ∧
    (Allocate k tv r t).2.length ≤ t.length + 1 := by
  unfold chosenIndex at h
  cases hfe : firstEmpty t with
  | some j₀ =>
    rw [hfe] at h
    cases h
    obtain ⟨hlt, hnone, _⟩ := firstEmpty_spec hfe
    rw [Allocate_fill k tv r hfe]
    refine ⟨hnone, rfl, slot_set_self _ hlt, ?_, ?_, ?_⟩
    · intro j' hj'
      exact slot_set_ne t (some r) fun he => hj' he.symm
    · simp
    · simp
  | none =>
    rw [hfe] at h
    by_cases hlen : t.length < k
    · rw [if_pos hlen] at h
      cases h
      rw [Allocate_append k tv r hfe hlen]
      refine ⟨slot_of_length_le (Nat.le_refl _), rfl, slot_append_length t _, ?_, ?_, ?_⟩
      · intro j' hj'
        rcases Nat.lt_or_ge j' t.length with hj | hj
        · exact slot_append_lt [some r] hj
        · have hgt : t.length < j' := Nat.lt_of_le_of_ne hj fun he => hj' he.symm
          rw [slot_append_ge _ hgt, slot_of_length_le hj]
      · simp
      · simp
    · rw [if_neg hlen] at h
      cases h

theorem Allocate_of_chosen_none (k : Nat) (tv : Int) (r : R) {t : Table R}
    (h : chosenIndex k t = none) :
    Allocate k tv r t = (invalidHandle, t) := by
  unfold chosenIndex at h
  cases hfe : firstEmpty t with
  | some j₀ => rw [hfe] at h; cases h
  | none =>
    rw [hfe] at h
    by_cases hlen : t.length < k
    · rw [if_pos hlen] at h; cases h
    · exact Allocate_fail k tv r hfe (Nat.le_of_not_lt hlen)

theorem AllocateShared_of_chosen (k : Nat) (tv : Int) (s : Option R)
    {t : Table R} {j : Nat} (h : chosenIndex k t = some j) :
    slot t j = none ∧
    (AllocateShared k tv s t).1 = MakeHandle tv j ∧
    slot (AllocateShared k tv s t).2 j = s ∧
    (∀ j', j' ≠ j → slot (AllocateShared k tv s t).2 j' = slot t j') ∧
    t.length ≤ (AllocateShared k tv s t).2.length ∧
    (AllocateShared k tv s t).2.length ≤ t.length + 1 := by
  unfold chosenIndex at h
  cases hfe : firstEmpty t with
  | some j₀ =>
    rw [hfe] at h
    cases h
    obtain ⟨hlt, hnone, _⟩ := firstEmpty_spec hfe
    rw [AllocateShared_fill k tv s hfe]
    refine ⟨hnone, rfl, slot_set_self _ hlt, ?_, ?_, ?_⟩
    · intro j' hj'
      exact slot_set_ne t s fun he => hj' he.symm
    · simp
    · simp
  | none =>
    rw [hfe] at h
    by_cases hlen : t.length < k
    · rw [if_pos hlen] at h
      cases h
      rw [AllocateShared_append k tv s hfe hlen]
      refine ⟨slot_of_length_le (Nat.le_refl _), rfl, slot_append_length t _, ?_, ?_, ?_⟩
      · intro j' hj'
        rcases Nat.lt_or_ge j' t.length with hj | hj
        · exact slot_append_lt [s] hj
        · have hgt : t.length < j' := Nat.lt_of_le_of_ne hj fun he => hj' he.symm
          rw [slot_append_ge _ hgt, slot_of_length_le hj]
      · simp
      · simp
    · rw [if_neg hlen] at h
      cases h

theorem AllocateShared_of_chosen_none (k : Nat) (tv : Int) (s : Option R)
    {t : Table R} (h : chosenIndex k t = none) :
    AllocateShared k tv s t = (invalidHandle, t) := by
  unfold chosenIndex at h
  cases hfe : firstEmpty t with
  | some j₀ => rw [hfe] at h; cases h
  | none =>
    rw [hfe] at h
    by_cases hlen : t.length < k
    · rw [if_pos hlen] at h; cases h
    · exact AllocateShared_fail k tv s hfe (Nat.le_of_not_lt hlen)

theorem Allocate_preserves_occupied (k : Nat) (tv : Int) (r : R) {t : Table R}
    {j : Nat} {x : R} (h : slot t j = some x) :
    slot (Allocate k tv r t).2 j = some x := by
  cases hc : chosenIndex k t with
  | none => rw [Allocate_of_chosen_none k tv r hc]; exact h
  | some j₀ =>
    obtain ⟨hnone, _, _, hpres, _⟩ := Allocate_of_chosen k tv r hc
    have hne : j ≠ j₀ := fun he => by rw [he, hnone] at h; cases h
    rw [hpres j hne]
    exact h

theorem AllocateShared_preserves_occupied (k : Nat) (tv : Int) (s : Option R)
    {t : Table R} {j : Nat} {x : R} (h : slot t j = some x) :
    slot (AllocateShared k tv s t).2 j = some x := by
  cases hc : chosenIndex k t with
  | none => rw [AllocateShared_of_chosen_none k tv s hc]; exact h
  | some j₀ =>
    obtain ⟨hnone, _, _, hpres, _⟩ := AllocateShared_of_chosen k tv s hc
    have hne : j ≠ j₀ := fun he => by rw [he, hnone] at h; cases h
    rw [hpres j hne]
    exact h

theorem Allocate_slot_none_of_not_chosen (k : Nat) (tv : Int) (r : R)
    {t : Table R} {i : Nat} (h : slot t i = none)
    (hc : chosenIndex k t ≠ some i) :
    slot (Allocate k tv r t).2 i = none := by
  cases hch : chosenIndex k t with
  | none => rw [Allocate_of_chosen_none k tv r hch]; exact h
  | some j =>
    obtain ⟨_, _, _, hpres, _⟩ := Allocate_of_chosen k tv r hch
    have hne : i ≠ j := fun he => hc (he ▸ hch)
    rw [hpres i hne]
    exact h

theorem AllocateShared_slot_none_of_not_chosen (k : Nat) (tv : Int)
    (s : Option R) {t : Table R} {i : Nat} (h : slot t i = none)
    (hc : chosenIndex k t ≠ some i) :
    slot (AllocateShared k tv s t).2 i = none := by
  cases hch : chosenIndex k t with
  | none => rw [AllocateShared_of_chosen_none k tv s hch]; exact h
  | some j =>
    obtain ⟨_, _, _, hpres, _⟩ := AllocateShared_of_chosen k tv s hch
    have hne : i ≠ j := fun he => hc (he ▸ hch)
    rw [hpres i hne]
    exact h

/-! ### Decoding, lookup and release lemmas -/

theorem getTypedIndex_MakeHandle (tv : Int) (i : Nat) :
    getTypedIndex (MakeHandle tv i) tv = (i : Int) := by
  simp [getTypedIndex, MakeHandle]

theorem MakeHandle_index (tv : Int) (i : Nat) :
    (MakeHandle tv i).index = (i : Int) := rfl

theorem Get_eq_slot_of_decode (tv : Int) {h : THandle} {i : Nat}
    (hd : getTypedIndex h tv = (i : Int)) (t : Table R) :
    Get tv h t = slot t i := by
  unfold Get
  rw [hd]
  rw [if_neg (Int.not_lt.mpr (Int.natCast_nonneg i))]
  by_cases hlen : (t.length : Int) ≤ (i : Int)
  · rw [if_pos hlen, slot_of_length_le (Int.ofNat_le.mp hlen)]
  · rw [if_neg hlen]
    simp [slot]

theorem Get_MakeHandle (tv : Int) (i : Nat) (t : Table R) :
    Get tv (MakeHandle tv i) t = slot t i :=
  Get_eq_slot_of_decode tv (getTypedIndex_MakeHandle tv i) t

theorem Free_length (tv : Int) (h : THandle) (t : Table R) :
    (Free tv h t).length = t.length := by
  unfold Free
  by_cases h0 : getTypedIndex h tv < 0
  · rw [if_pos h0]
  · rw [if_neg h0]
    by_cases hlen : (t.length : Int) ≤ getTypedIndex h tv
    · rw [if_pos hlen]
    · rw [if_neg hlen]
      exact List.length_set t _ _

theorem Free_slot_self (tv : Int) {h : THandle} {i : Nat}
    (hd : getTypedIndex h tv = (i : Int)) (t : Table R) :
    slot (Free tv h t) i = none := by
  unfold Free
  rw [hd]
  rw [if_neg (Int.not_lt.mpr (Int.natCast_nonneg i))]
  by_cases hlen : (t.length : Int) ≤ (i : Int)
  · rw [if_pos hlen]
    exact slot_of_length_le (Int.ofNat_le.mp hlen)
  · rw [if_neg hlen]
    have hi : i < t.length := Int.ofNat_lt.mp (Int.not_le.mp hlen)
    simpa using slot_set_self (t := t) (none : Option R) hi

theorem Free_slot_of_decode_ne (tv : Int) {h : THandle} {i : Nat}
    (hd : getTypedIndex h tv ≠ (i : Int)) (t : Table R) :
    slot (Free tv h t) i = slot t i := by
  unfold Free
  by_cases h0 : getTypedIndex h tv < 0
  · rw [if_pos h0]
  · rw [if_neg h0]
    by_cases hlen : (t.length : Int) ≤ getTypedIndex h tv
    · rw [if_pos hlen]
    · rw [if_neg hlen]
      refine slot_set_ne t none fun he => hd ?_
      rw [← he, Int.toNat_of_nonneg (Int.not_lt.mp h0)]

theorem Free_slot_none (tv : Int) (h : THandle) {t : Table R} {i : Nat}
    (hs : slot t i = none) : slot (Free tv h t) i = none := by
  by_cases hd : getTypedIndex h tv = (i : Int)
  · exact Free_slot_self tv hd t
  · rw [Free_slot_of_decode_ne tv hd t]
    exact hs

/-- C1: when exactly `kIndexMax` slots are live (every slot occupied and the
array at its maximum length), both `Allocate` overloads return the sentinel
invalid handle and leave the slot array completely unchanged. -/
theorem allocate_at_capacity (k : Nat) (tv : Int) (r : R) (s : Option R)
    {t : Table R} (hlen : t.length = k) (hocc : ∀ x ∈ t, x ≠ none) :
    Allocate k tv r t = (invalidHandle, t) ∧
    AllocateShared k tv s t = (invalidHandle, t) := by
  have hfe : firstEmpty t = none := firstEmpty_eq_none_iff.mpr hocc
  have hk : k ≤ t.length := Nat.le_of_eq hlen.symm
  exact ⟨Allocate_fail k tv r hfe hk, AllocateShared_fail k tv s hfe hk⟩

/-- Witness for C1 at a concrete full table with `kIndexMax = 2`. -/
theorem allocate_at_capacity_witness :
    Allocate 2 1 (37 : Nat) [some 5, some 6] = (invalidHandle, [some 5, some 6]) ∧
    AllocateShared 2 1 (some 37) [some 5, some 6] =
      (invalidHandle, [some 5, some 6]) :=
  allocate_at_capacity 2 1 37 (some 37) (by decide) (by decide)

/-- C5: a handle whose decoded index for this table's type tag is negative
(wrong tag or otherwise invalid) or at or beyond the current array length is
treated uniformly: `Get` returns "not found" and `Free` is a no-op leaving
the table unchanged. -/
theorem invalid_or_out_of_range_lookup (tv : Int) (h : THandle) (t : Table R)
    (hbad : getTypedIndex h tv < 0 ∨ (t.length : Int) ≤ getTypedIndex h tv) :
    Get tv h t = none ∧ Free tv h t = t := by
  by_cases hneg : getTypedIndex h tv < 0
  · simp [Get, Free, hneg]
  · rcases hbad with hb | hge
    · exact absurd hb hneg
    · simp [Get, Free, hneg, hge]

/-- Witness for C5 on a wrong-tag handle and an out-of-range handle. -/
theorem invalid_or_out_of_range_lookup_witness :
    (Get 1 ⟨0, 5⟩ [some 3] = none ∧ Free 1 ⟨0, 5⟩ [some 3] = [some 3]) ∧
    (Get 1 ⟨7, 1⟩ [some 3] = none ∧ Free 1 ⟨7, 1⟩ [some 3] = [some 3]) :=
  ⟨invalid_or_out_of_range_lookup 1 ⟨0, 5⟩ ([some 3] : Table Nat)
      (Or.inl (by decide)),
    invalid_or_out_of_range_lookup 1 ⟨7, 1⟩ ([some 3] : Table Nat)
      (Or.inr (by decide))⟩

/-- C6: the slot array's length is monotonically non-decreasing: either
`Allocate` overload grows it by at most one slot, `Free` never changes it
(`Get` and `GetAll` are read-only by construction), and `Free` resets the
decoded slot's content to empty rather than removing the slot. -/
theorem table_length_monotone (k : Nat) (tv : Int) (r : R) (s : Option R)
    (h : THandle) (t : Table R) :
    (t.length ≤ (Allocate k tv r t).2.length ∧
      (Allocate k tv r t).2.length ≤ t.length + 1) ∧
    (t.length ≤ (AllocateShared k tv s t).2.length ∧
      (AllocateShared k tv s t).2.length ≤ t.length + 1) ∧
    (Free tv h t).length = t.length ∧
    ∀ i : Nat, getTypedIndex h tv = (i : Int) → slot (Free tv h t) i = none := by
  refine ⟨?_, ?_, Free_length tv h t, fun i hd => Free_slot_self tv hd t⟩
  · cases hc : chosenIndex k t with
    | none =>
      rw [Allocate_of_chosen_none k tv r hc]
      exact ⟨Nat.le_refl _, Nat.le_succ _⟩
    | some j =>
      obtain ⟨_, _, _, _, h5, h6⟩ := Allocate_of_chosen k tv r hc
      exact ⟨h5, h6⟩
  · cases hc : chosenIndex k t with
    | none =>
      rw [AllocateShared_of_chosen_none k tv s hc]
      exact ⟨Nat.le_refl _, Nat.le_succ _⟩
    | some j =>
      obtain ⟨_, _, _, _, h5, h6⟩ := AllocateShared_of_chosen k tv s hc
      exact ⟨h5, h6⟩

/-- Witness for C6: freeing a live slot empties it without shrinking the
array. -/
theorem table_length_monotone_witness :
    slot (Free 1 (MakeHandle 1 0) [some 2, none]) 0 = none :=
  (table_length_monotone 3 1 9 (some 4) (MakeHandle 1 0)
      ([some 2, none] : Table Nat)).2.2.2 0 (by decide)

/-- C8 (behavioral content): the by-reference overload follows exactly the
same first-fit slot-search and growth policy as the constructing overload —
the returned handle, including the exhaustion sentinel, is identical — and
installs the caller-supplied shared reference where the constructing
overload would install the newly constructed resource. -/
theorem AllocateShared_same_policy (k : Nat) (tv : Int) (t : Table R) (r : R)
    (s : Option R) :
    (AllocateShared k tv s t).1 = (Allocate k tv r t).1 ∧
    (AllocateShared k tv (some r) t).2 = (Allocate k tv r t).2 := by
  cases hfe : firstEmpty t with
  | some j =>
    rw [AllocateShared_fill k tv s hfe, AllocateShared_fill k tv (some r) hfe,
      Allocate_fill k tv r hfe]
    exact ⟨rfl, rfl⟩
  | none =>
    by_cases hlen : t.length < k
    · rw [AllocateShared_append k tv s hfe hlen,
        AllocateShared_append k tv (some r) hfe hlen,
        Allocate_append k tv r hfe hlen]
      exact ⟨rfl, rfl⟩
    · have hk := Nat.le_of_not_lt hlen
      rw [AllocateShared_fail k tv s hfe hk,
        AllocateShared_fail k tv (some r) hfe hk, Allocate_fail k tv r hfe hk]
      exact ⟨rfl, rfl⟩

/-! ### Sequences of allocations -/

/-- A sequence of calls to the constructing `Allocate` overload, returning
the handles in call order together with the final table. -/
def AllocateList (k : Nat) (tv : Int) : List R → Table R → List THandle × Table R
  | [], t => ([], t)
  | r :: rs, t =>
      let p := Allocate k tv r t
      let q := AllocateList k tv rs p.2
      (p.1 :: q.1, q.2)

/-- Every call in the sequence succeeds (finds an empty slot or may grow). -/
def AllocListOk (k : Nat) (tv : Int) : List R → Table R → Bool
  | [], _ => true
  | r :: rs, t => AllocOk k t && AllocListOk k tv rs (Allocate k tv r t).2

theorem AllocateList_avoids_occupied (k : Nat) (tv : Int) {rs : List R}
    {t : Table R} {j : Nat} {x : R} (hok : AllocListOk k tv rs t = true)
    (hocc : slot t j = some x) :
    ∀ h ∈ (AllocateList k tv rs t).1, h.index ≠ (j : Int) := by
  induction rs generalizing t x with
  | nil => simp [AllocateList]
  | cons r rs ih =>
    simp only [AllocListOk, Bool.and_eq_true] at hok
    obtain ⟨hok1, hok2⟩ := hok
    obtain ⟨j₀, hj₀⟩ := Option.isSome_iff_exists.mp ((AllocOk_iff_chosen k t).mp hok1)
    obtain ⟨hnone, hfst, _, _, _⟩ := Allocate_of_chosen k tv r hj₀
    have hocc1 : slot (Allocate k tv r t).2 j = some x :=
      Allocate_preserves_occupied k tv r hocc
    intro h hmem
    rcases List.mem_cons.mp hmem with hh | hh
    · subst hh
      rw [hfst, MakeHandle_index]
      intro hcast
      have : j₀ = j := Int.ofNat_inj.mp hcast
      subst this
      rw [hnone] at hocc
      cases hocc
    · exact ih hok2 hocc1 h hh

/-- C2: over any sequence of successful `Allocate` calls with no intervening
`Free`, the returned handles encode pairwise-distinct indices. -/
theorem allocate_indices_distinct (k : Nat) (tv : Int) (rs : List R)
    (t : Table R) (hok : AllocListOk k tv rs t = true) :
    ((AllocateList k tv rs t).1.map THandle.index).Nodup := by
  induction rs generalizing t with
  | nil => simp [AllocateList]
  | cons r rs ih =>
    simp only [AllocListOk, Bool.and_eq_true] at hok
    obtain ⟨hok1, hok2⟩ := hok
    obtain ⟨j, hj⟩ := Option.isSome_iff_exists.mp ((AllocOk_iff_chosen k t).mp hok1)
    obtain ⟨_, hfst, hsnd, _, _⟩ := Allocate_of_chosen k tv r hj
    show ((Allocate k tv r t).1 ::
        (AllocateList k tv rs (Allocate k tv r t).2).1).map THandle.index |>.Nodup
    rw [List.map_cons, List.nodup_cons]
    refine ⟨?_, ih _ hok2⟩
    intro hmem
    obtain ⟨h, hh, hidx⟩ := List.mem_map.mp hmem
    rw [hfst, MakeHandle_index] at hidx
    exact AllocateList_avoids_occupied k tv hok2 hsnd h hh hidx

/-- Witness for C2 on a concrete two-allocation run over a table that
already has a hole at index 1. -/
theorem allocate_indices_distinct_witness :
    ((AllocateList 3 1 [10, 20] ([some 1, none] : Table Nat)).1.map
      THandle.index).Nodup :=
  allocate_indices_distinct 3 1 [10, 20] [some 1, none] (by decide)

/-- C3: `Allocate` always fills the lowest-indexed empty slot (first-fit),
appends a new slot only when no empty slot exists, and after an allocation
at some index followed by a `Free` of the returned handle, the next
`Allocate` returns a handle with the same index provided no lower-indexed
slot is empty at that point. -/
theorem allocate_first_fit (k : Nat) (tv : Int) :
    (∀ (r : R) (t : Table R) (j : Nat), j < t.length → slot t j = none →
      (∀ j', j' < j → slot t j' ≠ none) →
      Allocate k tv r t = (MakeHandle tv j, t.set j (some r))) ∧
    (∀ (r : R) (t : Table R), (∀ x ∈ t, x ≠ none) → t.length < k →
      Allocate k tv r t = (MakeHandle tv t.length, t ++ [some r])) ∧
    (∀ (r r2 : R) (t : Table R) (j : Nat), chosenIndex k t = some j →
      (∀ j', j' < j →
        slot (Free tv (Allocate k tv r t).1 (Allocate k tv r t).2) j' ≠ none) →
      (Allocate k tv r2 (Free tv (Allocate k tv r t).1 (Allocate k tv r t).2)).1
        = (Allocate k tv r t).1) := by
  refine ⟨?_, ?_, ?_⟩
  · intro r t j hlt hj hmin
    exact Allocate_fill k tv r (firstEmpty_of_least hlt hj hmin)
  · intro r t hocc hlen
    exact Allocate_append k tv r (firstEmpty_eq_none_iff.mpr hocc) hlen
  · intro r r2 t j hch hmin
    obtain ⟨_, hfst, hsnd, _, _⟩ := Allocate_of_chosen k tv r hch
    have hd : getTypedIndex (Allocate k tv r t).1 tv = (j : Int) := by
      rw [hfst]
      exact getTypedIndex_MakeHandle tv j
    have hjlt : j < (Allocate k tv r t).2.length :=
      lt_length_of_slot_ne_none (by rw [hsnd]; exact fun hx => by cases hx)
    have hjlt2 : j < (Free tv (Allocate k tv r t).1 (Allocate k tv r t).2).length := by
      rwa [Free_length]
    have hfe : firstEmpty (Free tv (Allocate k tv r t).1 (Allocate k tv r t).2)
        = some j :=
      firstEmpty_of_least hjlt2 (Free_slot_self tv hd _) hmin
    rw [Allocate_fill k tv r2 hfe, hfst]

/-- Witness for C3: first-fit fill of an interior hole, append on a full
array, and reuse of a freed index. -/
theorem allocate_first_fit_witness :
    Allocate 3 1 (9 : Nat) [some 1, none, some 2]
      = (MakeHandle 1 1, [some 1, some 9, some 2]) ∧
    Allocate 3 1 (9 : Nat) [some 1] = (MakeHandle 1 1, [some 1, some 9]) ∧
    (Allocate 3 1 (8 : Nat)
        (Free 1 (Allocate 3 1 (9 : Nat) [some 1]).1
          (Allocate 3 1 (9 : Nat) [some 1]).2)).1
      = (Allocate 3 1 (9 : Nat) [some 1]).1 := by
  refine ⟨?_, ?_, ?_⟩
  · exact (allocate_first_fit 3 1).1 9 [some 1, none, some 2] 1 (by decide)
      (by decide) (fun j' hj' => by
        have : j' = 0 := by omega
        subst this
        decide)
  · exact (allocate_first_fit 3 1).2.1 9 [some 1] (by decide) (by decide)
  · exact (allocate_first_fit 3 1).2.2 9 8 [some 1] 1 (by decide)
      (fun j' hj' => by
        have : j' = 0 := by omega
        subst this
        decide)

/-! ### Operation traces -/

/-- One table operation (the mutex serializes them, so a concurrent history
is a list of operations). -/
inductive Op (R : Type) where
  | alloc (r : R)
  | allocShared (s : Option R)
  | free (h : THandle)

/-- Effect of one operation on the slot array. -/
def step (k : Nat) (tv : Int) : Op R → Table R → Table R
  | .alloc r, t => (Allocate k tv r t).2
  | .allocShared s, t => (AllocateShared k tv s t).2
  | .free h, t => Free tv h t

/-- Effect of a list of operations, first operation first. -/
def run (k : Nat) (tv : Int) : List (Op R) → Table R → Table R
  | [], t => t
  | o :: os, t => run k tv os (step k tv o t)

/-- Whether an operation is a `Free` whose handle decodes (for this table's
tag) to slot `i`. -/
def freesAt (tv : Int) (i : Nat) : Op R → Bool
  | .free h => decide (getTypedIndex h tv = (i : Int))
  | _ => false

/-- No operation of the trace frees slot `i`. -/
def NoFreeAt (tv : Int) (i : Nat) (ops : List (Op R)) : Bool :=
  ops.all fun o => !freesAt tv i o

/-- Whether an operation, applied to table `t`, is an allocation that
installs into slot `i`. -/
def installsAt (k : Nat) (i : Nat) (o : Op R) (t : Table R) : Bool :=
  match o with
  | .free _ => false
  | _ => decide (chosenIndex k t = some i)

/-- No operation of the trace, run from table `t`, allocates into slot `i`
(no reuse of slot `i`). -/
def NoInstallAt (k : Nat) (tv : Int) (i : Nat) :
    List (Op R) → Table R → Bool
  | [], _ => true
  | o :: os, t => !installsAt k i o t && NoInstallAt k tv i os (step k tv o t)

theorem run_preserves_occupied (k : Nat) (tv : Int) {ops : List (Op R)}
    {t : Table R} {i : Nat} {x : R} (hocc : slot t i = some x)
    (hnf : NoFreeAt tv i ops = true) :
    slot (run k tv ops t) i = some x := by
  induction ops generalizing t with
  | nil => exact hocc
  | cons o os ih =>
    simp only [NoFreeAt, List.all_cons, Bool.and_eq_true] at hnf
    obtain ⟨ho, hos⟩ := hnf
    refine ih ?_ hos
    cases o with
    | alloc r => exact Allocate_preserves_occupied k tv r hocc
    | allocShared s => exact AllocateShared_preserves_occupied k tv s hocc
    | free h =>
      simp only [freesAt, Bool.not_eq_true', decide_eq_false_iff_not] at ho
      show slot (Free tv h t) i = some x
      rw [Free_slot_of_decode_ne tv ho t]
      exact hocc

theorem run_preserves_empty (k : Nat) (tv : Int) {ops : List (Op R)}
    {t : Table R} {i : Nat} (hemp : slot t i = none)
    (hni : NoInstallAt k tv i ops t = true) :
    slot (run k tv ops t) i = none := by
  induction ops generalizing t with
  | nil => exact hemp
  | cons o os ih =>
    simp only [NoInstallAt, Bool.and_eq_true, Bool.not_eq_true'] at hni
    obtain ⟨ho, hos⟩ := hni
    refine ih ?_ hos
    cases o with
    | alloc r =>
      simp only [installsAt, decide_eq_false_iff_not] at ho
      exact Allocate_slot_none_of_not_chosen k tv r hemp ho
    | allocShared s =>
      simp only [installsAt, decide_eq_false_iff_not] at ho
      exact AllocateShared_slot_none_of_not_chosen k tv s hemp ho
    | free h => exact Free_slot_none tv h hemp

/-- C4: a handle from a successful `Allocate` that installed `r` resolves
via `Get` to exactly `r` as long as the trace neither frees nor reuses its
slot; and after `Free` of a handle, `Get` on that handle returns "not
found" until the slot is reused by a subsequent allocation. -/
theorem get_round_trip (k : Nat) (tv : Int) :
    (∀ (r : R) (t : Table R) (i : Nat) (ops : List (Op R)),
      chosenIndex k t = some i →
      NoFreeAt tv i ops = true →
      NoInstallAt k tv i ops (Allocate k tv r t).2 = true →
      Get tv (Allocate k tv r t).1 (run k tv ops (Allocate k tv r t).2)
        = some r) ∧
    (∀ (t : Table R) (h : THandle) (i : Nat) (ops : List (Op R)),
      getTypedIndex h tv = (i : Int) →
      NoInstallAt k tv i ops (Free tv h t) = true →
      Get tv h (run k tv ops (Free tv h t)) = none) := by
  constructor
  · intro r t i ops hch hnf _
    obtain ⟨_, hfst, hsnd, _, _⟩ := Allocate_of_chosen k tv r hch
    rw [hfst, Get_MakeHandle]
    exact run_preserves_occupied k tv hsnd hnf
  · intro t h i ops hd hni
    rw [Get_eq_slot_of_decode tv hd]
    exact run_preserves_empty k tv (Free_slot_self tv hd t) hni

/-- Witness for C4: a live handle survives an unrelated allocation and an
unrelated free, and a freed handle stays "not found" across an unrelated
free. -/
theorem get_round_trip_witness :
    Get 1 (Allocate 3 1 (7 : Nat) [some 5]).1
      (run 3 1 [Op.alloc 9, Op.free (MakeHandle 1 0)]
        (Allocate 3 1 (7 : Nat) [some 5]).2) = some 7 ∧
    Get 1 (MakeHandle 1 0)
      (run 3 1 [Op.free (MakeHandle 1 1)]
        (Free 1 (MakeHandle 1 0) ([some 5, some 6] : Table Nat))) = none :=
  ⟨(get_round_trip 3 1).1 7 [some 5] 1 [Op.alloc 9, Op.free (MakeHandle 1 0)]
      (by decide) (by decide) (by decide),
    (get_round_trip 3 1).2 [some 5, some 6] (MakeHandle 1 0) 0
      [Op.free (MakeHandle 1 1)] (by decide) (by decide)⟩

/-! ### Enumeration -/

/-- Indices of the occupied slots of the array, offset by the scan start. -/
def occupiedIndicesFrom : Nat → Table R → List Nat
  | _, [] => []
  | i, none :: rest => occupiedIndicesFrom (i + 1) rest
  | i, some _ :: rest => i :: occupiedIndicesFrom (i + 1) rest

/-- The consecutive naturals `s, s+1, ..., s+n-1`. -/
def natsFrom : Nat → Nat → List Nat
  | _, 0 => []
  | s, n + 1 => s :: natsFrom (s + 1) n

theorem natsFrom_length (s n : Nat) : (natsFrom s n).length = n := by
  induction n generalizing s with
  | zero => rfl
  | succ m ih => simp [natsFrom, ih]

theorem getAllFrom_acc (tv : Int) (t : Table R) :
    ∀ (i : Nat) (acc : List THandle),
      getAllFrom tv i t acc = acc ++ getAllFrom tv i t [] := by
  induction t with
  | nil => intro i acc; exact (List.append_nil acc).symm
  | cons x rest ih =>
    intro i acc
    cases x with
    | none => exact ih (i + 1) acc
    | some y =>
      show getAllFrom tv (i + 1) rest (acc ++ [MakeHandle tv i])
          = acc ++ getAllFrom tv (i + 1) rest ([] ++ [MakeHandle tv i])
      rw [ih (i + 1) (acc ++ [MakeHandle tv i]),
        ih (i + 1) ([] ++ [MakeHandle tv i])]
      simp

theorem getAllFrom_eq_map (tv : Int) (t : Table R) (i : Nat) :
    getAllFrom tv i t [] = (occupiedIndicesFrom i t).map (MakeHandle tv) := by
  induction t generalizing i with
  | nil => rfl
  | cons x rest ih =>
    cases x with
    | none => exact ih (i + 1)
    | some y =>
      show getAllFrom tv (i + 1) rest ([] ++ [MakeHandle tv i]) = _
      rw [getAllFrom_acc tv rest (i + 1) ([] ++ [MakeHandle tv i]), ih (i + 1)]
      simp [occupiedIndicesFrom]

theorem occupiedIndicesFrom_ge {t : Table R} :
    ∀ {i j : Nat}, j ∈ occupiedIndicesFrom i t → i ≤ j := by
  induction t with
  | nil => intro i j h; cases h
  | cons x rest ih =>
    intro i j h
    cases x with
    | none => exact Nat.le_of_succ_le (ih h)
    | some y =>
      rcases List.mem_cons.mp h with rfl | h2
      · exact Nat.le_refl _
      · exact Nat.le_of_succ_le (ih h2)

theorem occupiedIndicesFrom_sorted (t : Table R) (i : Nat) :
    (occupiedIndicesFrom i t).Pairwise (· < ·) := by
  induction t generalizing i with
  | nil => exact List.Pairwise.nil
  | cons x rest ih =>
    cases x with
    | none => exact ih (i + 1)
    | some y =>
      refine List.pairwise_cons.mpr ⟨?_, ih (i + 1)⟩
      intro j hj
      exact Nat.lt_of_succ_le (occupiedIndicesFrom_ge hj)

theorem occupiedIndicesFrom_mem (t : Table R) :
    ∀ (i j : Nat), j ∈ occupiedIndicesFrom i t ↔
      ∃ d, j = i + d ∧ slot t d ≠ none := by
  induction t with
  | nil =>
    intro i j
    simp only [occupiedIndicesFrom, List.not_mem_nil, false_iff]
    rintro ⟨d, _, hd⟩
    exact hd (slot_nil d)
  | cons x rest ih =>
    intro i j
    cases x with
    | none =>
      rw [show occupiedIndicesFrom i (none :: rest) =
          occupiedIndicesFrom (i + 1) rest from rfl, ih (i + 1) j]
      constructor
      · rintro ⟨d, rfl, hd⟩
        exact ⟨d + 1, by omega, hd⟩
      · rintro ⟨d, rfl, hd⟩
        cases d with
        | zero => exact absurd rfl hd
        | succ d' => exact ⟨d', by omega, hd⟩
    | some y =>
      rw [show occupiedIndicesFrom i (some y :: rest) =
          i :: occupiedIndicesFrom (i + 1) rest from rfl, List.mem_cons,
        ih (i + 1) j]
      constructor
      · rintro (rfl | ⟨d, rfl, hd⟩)
        · exact ⟨0, by omega, fun hx => by cases hx⟩
        · exact ⟨d + 1, by omega, hd⟩
      · rintro ⟨d, rfl, hd⟩
        cases d with
        | zero => exact Or.inl (by omega)
        | succ d' => exact Or.inr ⟨d', by omega, hd⟩

theorem occupiedIndicesFrom_map_some (rs : List R) :
    ∀ i : Nat, occupiedIndicesFrom i (rs.map some) = natsFrom i rs.length := by
  induction rs with
  | nil => intro i; rfl
  | cons r rs ih =>
    intro i
    show i :: occupiedIndicesFrom (i + 1) (rs.map some) = _
    rw [ih (i + 1)]
    rfl

theorem slot_append_cons (t : Table R) (v : Option R) (l : Table R) :
    slot (t ++ v :: l) t.length = v := by
  induction t with
  | nil => rfl
  | cons x rest ih =>
    rw [List.cons_append, List.length_cons, slot_cons_succ]
    exact ih

theorem AllocateList_fresh (k : Nat) (tv : Int) :
    ∀ (rs : List R) (t : Table R), (∀ x ∈ t, x ≠ none) →
      t.length + rs.length ≤ k →
      (AllocateList k tv rs t).1
          = (natsFrom t.length rs.length).map (MakeHandle tv) ∧
      (AllocateList k tv rs t).2 = t ++ rs.map some ∧
      List.Forall₂ (fun h r => Get tv h (AllocateList k tv rs t).2 = some r)
        (AllocateList k tv rs t).1 rs := by
  intro rs
  induction rs with
  | nil =>
    intro t _ _
    exact ⟨rfl, by simp [AllocateList], List.Forall₂.nil⟩
  | cons r rs ih =>
    intro t hocc hk
    have hfe : firstEmpty t = none := firstEmpty_eq_none_iff.mpr hocc
    have hlen : t.length < k := by
      simp only [List.length_cons] at hk
      omega
    have halloc := Allocate_append k tv r hfe hlen
    have hocc1 : ∀ x ∈ t ++ [some r], x ≠ none := by
      intro x hx
      rcases List.mem_append.mp hx with h1 | h2
      · exact hocc x h1
      · rw [List.mem_singleton.mp h2]
        exact fun hx2 => by cases hx2
    have hk1 : (t ++ [some r]).length + rs.length ≤ k := by
      rw [List.length_append, List.length_singleton]
      simp only [List.length_cons] at hk
      omega
    obtain ⟨ih1, ih2, ih3⟩ := ih (t ++ [some r]) hocc1 hk1
    have hstep : AllocateList k tv (r :: rs) t
        = ((Allocate k tv r t).1 ::
            (AllocateList k tv rs (Allocate k tv r t).2).1,
          (AllocateList k tv rs (Allocate k tv r t).2).2) := rfl
    have happlen : (t ++ [some r]).length = t.length + 1 := by simp
    refine ⟨?_, ?_, ?_⟩
    · rw [hstep, halloc]
      show MakeHandle tv t.length :: (AllocateList k tv rs (t ++ [some r])).1 = _
      rw [ih1, happlen]
      rfl
    · rw [hstep, halloc]
      show (AllocateList k tv rs (t ++ [some r])).2 = _
      rw [ih2]
      simp
    · rw [hstep, halloc]
      show List.Forall₂ _
          (MakeHandle tv t.length :: (AllocateList k tv rs (t ++ [some r])).1)
          (r :: rs)
      refine List.Forall₂.cons ?_ ih3
      rw [ih2, Get_MakeHandle, List.append_assoc, List.singleton_append,
        slot_append_cons]

/-- C7: `GetAll` produces exactly one handle per occupied slot in strictly
ascending index order, and immediately after `N` successful allocations from
an empty table it yields exactly the `N` returned handles, each of which
`Get` resolves to the resource installed at its allocation. -/
theorem getAll_enumeration (k : Nat) (tv : Int) :
    (∀ t : Table R,
      (GetAll tv t []).Pairwise (fun a b => a.index < b.index) ∧
      ∀ h : THandle, h ∈ GetAll tv t []
        ↔ ∃ i : Nat, slot t i ≠ none ∧ h = MakeHandle tv i) ∧
    (∀ rs : List R, rs.length ≤ k →
      (AllocateList k tv rs []).1.length = rs.length ∧
      GetAll tv (AllocateList k tv rs []).2 [] = (AllocateList k tv rs []).1 ∧
      List.Forall₂ (fun h r => Get tv h (AllocateList k tv rs []).2 = some r)
        (AllocateList k tv rs []).1 rs) := by
  constructor
  · intro t
    have heq : GetAll tv t [] = (occupiedIndicesFrom 0 t).map (MakeHandle tv) :=
      getAllFrom_eq_map tv t 0
    constructor
    · rw [heq]
      exact List.Pairwise.map (MakeHandle tv)
        (fun a b hab => by
          rw [MakeHandle_index, MakeHandle_index]
          exact Int.ofNat_lt.mpr hab)
        (occupiedIndicesFrom_sorted t 0)
    · intro h
      rw [heq]
      constructor
      · intro hmem
        obtain ⟨j, hj, hjh⟩ := List.mem_map.mp hmem
        obtain ⟨d, hd, hocc⟩ := (occupiedIndicesFrom_mem t 0 j).mp hj
        refine ⟨d, hocc, ?_⟩
        rw [← hjh]
        congr 1
        omega
      · rintro ⟨i, hocc, rfl⟩
        exact List.mem_map.mpr
          ⟨i, (occupiedIndicesFrom_mem t 0 i).mpr ⟨i, by omega, hocc⟩, rfl⟩
  · intro rs hk
    obtain ⟨h1, h2, h3⟩ := AllocateList_fresh k tv rs []
      (fun x hx => by cases hx) (by simpa using hk)
    refine ⟨?_, ?_, h3⟩
    · rw [h1, List.length_map, natsFrom_length]
    · rw [h2, h1]
      show GetAll tv (([] : Table R) ++ rs.map some) [] = _
      rw [List.nil_append]
      rw [show GetAll tv (rs.map some) []
          = (occupiedIndicesFrom 0 (rs.map some)).map (MakeHandle tv) from
          getAllFrom_eq_map tv (rs.map some) 0,
        occupiedIndicesFrom_map_some rs 0]
      rfl

/-- Witness for C7: three allocations from an empty table enumerate back in
order and resolve to their resources. -/
theorem getAll_enumeration_witness :
    ((GetAll 1 ([some 4, none, some 6] : Table Nat) []).Pairwise
      (fun a b => a.index < b.index)) ∧
    GetAll 1 (AllocateList 4 1 [10, 11, 12] ([] : Table Nat)).2 []
      = (AllocateList 4 1 [10, 11, 12] ([] : Table Nat)).1 ∧
    List.Forall₂
      (fun h r => Get 1 h (AllocateList 4 1 [10, 11, 12] ([] : Table Nat)).2
        = some r)
      (AllocateList 4 1 [10, 11, 12] ([] : Table Nat)).1 [10, 11, 12] :=
  ⟨((getAll_enumeration 4 1).1 [some 4, none, some 6]).1,
    ((getAll_enumeration 4 1).2 [10, 11, 12] (by decide)).2.1,
    ((getAll_enumeration 4 1).2 [10, 11, 12] (by decide)).2.2⟩

/-- C9: `GetAll` never clears the caller-provided output vector — the prior
content is preserved unchanged as a prefix and the table's handles are
appended after it. -/
theorem GetAll_appends_to_output (tv : Int) (t : Table R)
    (handles : List THandle) :
    GetAll tv t handles = handles ++ GetAll tv t [] :=
  getAllFrom_acc tv t 0 handles

theorem slot_mem {t : Table R} {j : Nat} (h : j < t.length) : slot t j ∈ t := by
  induction t generalizing j with
  | nil => simp at h
  | cons x rest ih =>
    cases j with
    | zero => exact List.mem_cons_self x rest
    | succ j' =>
      rw [slot_cons_succ]
      exact List.mem_cons_of_mem x (ih (Nat.lt_of_succ_lt_succ h))

theorem AllocateShared_none_chosen (k : Nat) (tv : Int) {t : Table R}
    {j : Nat} (hj : chosenIndex k t = some j) :
    chosenIndex k (AllocateShared k tv (none : Option R) t).2 = some j := by
  have hpres : ∀ j', j' ≠ j →
      slot (AllocateShared k tv (none : Option R) t).2 j' = slot t j' :=
    (AllocateShared_of_chosen k tv (none : Option R) hj).2.2.2.1
  have hfe2 : firstEmpty (AllocateShared k tv (none : Option R) t).2 = some j := by
    cases hfe : firstEmpty t with
    | some j₀ =>
      have hj0 : j₀ = j := by
        unfold chosenIndex at hj
        rw [hfe] at hj
        exact Option.some.inj hj
      subst hj0
      obtain ⟨hlt, hsl, hmin⟩ := firstEmpty_spec hfe
      rw [AllocateShared_fill k tv (none : Option R) hfe]
      refine firstEmpty_of_least (by simpa using hlt) (slot_set_self _ hlt) ?_
      intro j' hj'
      rw [slot_set_ne t none (Nat.ne_of_lt hj').symm]
      exact hmin j' hj'
    | none =>
      have hlen : t.length < k := by
        unfold chosenIndex at hj
        rw [hfe] at hj
        by_cases hl : t.length < k
        · exact hl
        · rw [if_neg hl] at hj
          cases hj
      have hjeq : j = t.length := by
        unfold chosenIndex at hj
        rw [hfe, if_pos hlen] at hj
        exact (Option.some.inj hj).symm
      subst hjeq
      rw [AllocateShared_append k tv (none : Option R) hfe hlen]
      refine firstEmpty_of_least (by simp) (slot_append_length t none) ?_
      intro j' hj'
      rw [slot_append_lt [none] hj']
      exact firstEmpty_eq_none_iff.mp hfe _ (slot_mem hj')
  unfold chosenIndex
  rw [hfe2]

/-- C10: calling the by-reference overload with a null shared pointer when a
slot is available still returns a handle for the chosen slot, but that slot
is indistinguishable from empty — `Get` on the returned handle yields "not
found", and a subsequent `Allocate` of either overload treats the slot as
free and reuses its index. -/
theorem allocate_shared_null (k : Nat) (tv : Int) (t : Table R) (r : R)
    (s : Option R) (hok : AllocOk k t = true) :
    (∃ i : Nat, (AllocateShared k tv (none : Option R) t).1 = MakeHandle tv i) ∧
    Get tv (AllocateShared k tv (none : Option R) t).1
      (AllocateShared k tv (none : Option R) t).2 = none ∧
    (Allocate k tv r (AllocateShared k tv (none : Option R) t).2).1
      = (AllocateShared k tv (none : Option R) t).1 ∧
    (AllocateShared k tv s (AllocateShared k tv (none : Option R) t).2).1
      = (AllocateShared k tv (none : Option R) t).1 := by
  obtain ⟨j, hj⟩ := Option.isSome_iff_exists.mp ((AllocOk_iff_chosen k t).mp hok)
  obtain ⟨_, hfst, hsnd, _, _, _⟩ :=
    AllocateShared_of_chosen k tv (none : Option R) hj
  have hch2 := AllocateShared_none_chosen k tv hj
  refine ⟨⟨j, hfst⟩, ?_, ?_, ?_⟩
  · rw [hfst, Get_MakeHandle]
    exact hsnd
  · obtain ⟨_, hfst2, _, _, _, _⟩ := Allocate_of_chosen k tv r hch2
    rw [hfst2, hfst]
  · obtain ⟨_, hfst2, _, _, _, _⟩ := AllocateShared_of_chosen k tv s hch2
    rw [hfst2, hfst]

/-- Witness for C10 on a one-slot table with room to grow. -/
theorem allocate_shared_null_witness :
    (∃ i : Nat, (AllocateShared 2 1 (none : Option Nat) [some 5]).1
      = MakeHandle 1 i) ∧
    Get 1 (AllocateShared 2 1 (none : Option Nat) [some 5]).1
      (AllocateShared 2 1 (none : Option Nat) [some 5]).2 = none ∧
    (Allocate 2 1 (7 : Nat) (AllocateShared 2 1 (none : Option Nat) [some 5]).2).1
      = (AllocateShared 2 1 (none : Option Nat) [some 5]).1 ∧
    (AllocateShared 2 1 (some 8) (AllocateShared 2 1 (none : Option Nat) [some 5]).2).1
      = (AllocateShared 2 1 (none : Option Nat) [some 5]).1 :=
  allocate_shared_null 2 1 [some 5] 7 (some 8) (by decide)

end cs
